import Mathlib

/-!
Verification of the MCMC sampling core of `Base/mcmc.py`
(classes `MetropolisHastings`, `MCMCDA`, `MoreauYosidaPrior`).

Modelling conventions, fixed once for the whole file:
* A parameter vector `theta` is a `List ℝ`.
* A log-posterior value is a `LogVal`: either a finite real or `-∞`
  (`log_prior` may return `-∞` outside the support; float `-inf`).
* Randomness is passed explicitly: each loop iteration consumes one record
  of pre-drawn random numbers (`z` the standard-normal noise vector of the
  proposal, `u` the Uniform[0,1) accept draw).  `torch.normal(0, dt)` is
  modelled as `dt * z` with `z` standard normal.
* `torch.exp(d).clamp(max=1.0)` on the (possibly infinite) log-difference
  `d` is modelled by `accProb`; the float corner `(-inf) - (-inf) = nan`
  makes the accept test `u < a` false exactly as `a = 0` does, and is
  mapped to `0`.
-/

/-- A float log-density value: finite, or `-inf` (out of support). -/
inductive LogVal where
  | negInf : LogVal
  | fin : ℝ → LogVal

/-- Float addition of log-densities: `-inf` absorbs. -/
def LogVal.add : LogVal → LogVal → LogVal
  | .negInf, _ => .negInf
  | .fin _, .negInf => .negInf
  | .fin x, .fin y => .fin (x + y)

/-- `torch.exp(lpNew - lpOld).clamp(max=1.0)` (mcmc.py lines 73, 189, 220):
the first-stage acceptance probability.  `exp(-inf - _) = 0` (the
`(-inf) - (-inf) = nan` corner also rejects, like `0`);
`exp(finite - (-inf)) = inf`, clamped to `1`. -/
noncomputable def accProb : LogVal → LogVal → ℝ
  | .negInf, _ => 0
  | .fin _, .negInf => 1
  | .fin x, .fin y => min 1 (Real.exp (x - y))

/-- `torch.clamp(torch.exp(lpNew - lpOld) * (1/a1), max=1.0)`
(mcmc.py line 229): the delayed-acceptance second-stage probability,
reached only with `a1 > 0`. -/
noncomputable def accProb2 : LogVal → LogVal → ℝ → ℝ
  | .negInf, _, _ => 0
  | .fin _, .negInf, _ => 1
  | .fin x, .fin y, a1 => min 1 (Real.exp (x - y) * (1 / a1))

/-- `random_walk` proposal (mcmc.py lines 43-44, 156-157):
`theta + torch.normal(mean=0, std=dt)`, with the per-coordinate
`Normal(0, dt²)` noise written as `dt * z`, `z` standard normal. -/
def proposalRW (theta : List ℝ) (dt : ℝ) (z : List ℝ) : List ℝ :=
  List.zipWith (fun t n => t + dt * n) theta z

/-- Step-size controller (mcmc.py lines 83 and 199):
`dt += dt * (a.item() - 0.234) / (i + 1)`. -/
noncomputable def adapt (dt a : ℝ) (i : ℕ) : ℝ :=
  dt + dt * (a - 0.234) / (i + 1)

/-- The two collaborator oracles of `MetropolisHastings`
(mcmc.py lines 33-39), supplied by subclasses. -/
structure MHConfig where
  log_prior : List ℝ → LogVal
  log_likelihood : List ℝ → LogVal

/-- Random numbers consumed by one single-stage MH iteration. -/
structure RandIn where
  z : List ℝ
  u : ℝ

/-- Mutable local state of `MetropolisHastings.run_chain`
(mcmc.py lines 54-59): current point, step size, accepted-proposal
counter, 0-based iteration index, and the sample buffer. -/
structure MHState where
  theta : List ℝ
  dt : ℝ
  accepted : ℕ
  i : ℕ
  samples : List (List ℝ)

/-- State at chain start (mcmc.py lines 54-59); `theta0` stands for the
`uniform_(-1, 1)` initial draw. -/
def mhInit (theta0 : List ℝ) (dt0 : ℝ) : MHState :=
  { theta := theta0, dt := dt0, accepted := 0, i := 0, samples := [] }

/-- `log_prior(theta) + log_likelihood(theta)` (mcmc.py lines 69-70). -/
def logPost (cfg : MHConfig) (t : List ℝ) : LogVal :=
  (cfg.log_prior t).add (cfg.log_likelihood t)

/-- One iteration of the `MetropolisHastings.run_chain` loop
(mcmc.py lines 66-83): propose, accept/reject with probability
`a = exp(Δ logpost).clamp(max=1)`, record the (post-update) point,
adapt the step size. -/
noncomputable def mhStep (cfg : MHConfig) (st : MHState) (r : RandIn) : MHState :=
  let thetaP := proposalRW st.theta st.dt r.z
  let a := accProb (logPost cfg thetaP) (logPost cfg st.theta)
  let acc := r.u < a
  let theta2 := if acc then thetaP else st.theta
  { theta := theta2
    dt := adapt st.dt a st.i
    accepted := st.accepted + (if acc then 1 else 0)
    i := st.i + 1
    samples := st.samples ++ [theta2] }

/-- The `for i in pbar` loop of `MetropolisHastings.run_chain`, folded
over the explicit list of per-iteration random inputs. -/
noncomputable def mhRun (cfg : MHConfig) : List RandIn → MHState → MHState
  | [], st => st
  | r :: rs, st => mhRun cfg rs (mhStep cfg st r)

/-- `MetropolisHastings.run_chain` (mcmc.py lines 52-88): runs
`nsamples + burnin` iterations (the caller supplies that many random
records), then returns `samples[burnin:]` and
`accepted_proposals / nsamples`. -/
noncomputable def MetropolisHastings.run_chain (cfg : MHConfig)
    (nsamples burnin : ℕ) (theta0 : List ℝ) (dt0 : ℝ) (rs : List RandIn) :
    List (List ℝ) × ℝ :=
  let final := mhRun cfg rs (mhInit theta0 dt0)
  (final.samples.drop burnin, (final.accepted : ℝ) / (nsamples : ℝ))

/-!
The delayed-acceptance driver `MCMCDA` (mcmc.py lines 119-257).
Phase A (lines 180-199) is the same loop as `MetropolisHastings.run_chain`
with the coarse (outer) oracle; Phase B (lines 210-246) is the
`while inner_mh < iter_da` delayed-acceptance loop with the step size
left untouched.  We model the default `samples=False` path, so the
optional trajectory buffers are not kept; the Phase B observables are the
trial outcome bits (`acceptance_list`) and the counters.  The counters
`coarseEvals` / `fineEvals` count evaluation rounds: one round computes
the coarse (resp. fine) posterior at the current and the proposed point.
-/

/-- The collaborator oracles of `MCMCDA` (mcmc.py lines 142-152):
a prior and a coarse (outer) and fine (inner) likelihood. -/
structure DACfg where
  log_prior : List ℝ → LogVal
  log_likelihood_outer : List ℝ → LogVal
  log_likelihood_inner : List ℝ → LogVal

/-- The coarse log-posterior `log_prior + log_likelihood_outer`
(mcmc.py lines 185-186, 216-217). -/
def logPostOuter (cfg : DACfg) (t : List ℝ) : LogVal :=
  (cfg.log_prior t).add (cfg.log_likelihood_outer t)

/-- The fine log-posterior `log_prior + log_likelihood_inner`
(mcmc.py lines 225-226). -/
def logPostInner (cfg : DACfg) (t : List ℝ) : LogVal :=
  (cfg.log_prior t).add (cfg.log_likelihood_inner t)

/-- The Phase A loop runs `MetropolisHastings`-style steps against the
coarse oracle only (mcmc.py lines 180-199). -/
def outerMHConfig (cfg : DACfg) : MHConfig :=
  { log_prior := cfg.log_prior, log_likelihood := cfg.log_likelihood_outer }

/-- Stage-1 (coarse) acceptance probability of a Phase B trial
(mcmc.py line 220). -/
noncomputable def a1Of (cfg : DACfg) (theta thetaP : List ℝ) : ℝ :=
  accProb (logPostOuter cfg thetaP) (logPostOuter cfg theta)

/-- Stage-2 (fine, delayed-acceptance-corrected) acceptance probability
(mcmc.py line 229), with `a1` the stage-1 probability being divided by. -/
noncomputable def a2Of (cfg : DACfg) (theta thetaP : List ℝ) (a1 : ℝ) : ℝ :=
  accProb2 (logPostInner cfg thetaP) (logPostInner cfg theta) a1

/-- Random numbers consumed by one Phase B loop iteration: proposal
noise `z`, stage-1 draw `u1`, stage-2 draw `u2` (the latter is used only
when stage 1 passes). -/
structure DARand where
  z : List ℝ
  u1 : ℝ
  u2 : ℝ

/-- Mutable local state of the Phase B loop (mcmc.py lines 205-246):
current point, (frozen) step size, the trial counter `inner_mh`, the
stage-2 accept counter `inner_accepted`, the outcome bits
`acceptance_list`, plus the two oracle-round counters. -/
structure DAState where
  theta : List ℝ
  dt : ℝ
  innerMh : ℕ
  innerAccepted : ℕ
  coarseEvals : ℕ
  fineEvals : ℕ
  acceptanceList : List Bool

/-- Phase B entry state (mcmc.py line 210): counters reset to zero,
`theta` and `dt` inherited from Phase A. -/
def daInit (theta : List ℝ) (dt : ℝ) : DAState :=
  { theta := theta, dt := dt, innerMh := 0, innerAccepted := 0,
    coarseEvals := 0, fineEvals := 0, acceptanceList := [] }

/-- One iteration of the Phase B `while` loop body (mcmc.py
lines 212-237): propose with the state's step size, coarse-screen with
`a1`; on a stage-1 pass increment `inner_mh`, evaluate the fine
posterior pair and accept/reject with the corrected `a2`, recording the
outcome bit; on a stage-1 reject leave everything but the coarse
counter unchanged. -/
noncomputable def daStep (cfg : DACfg) (st : DAState) (r : DARand) : DAState :=
  let thetaP := proposalRW st.theta st.dt r.z
  let a1 := a1Of cfg st.theta thetaP
  if r.u1 < a1 then
    let a2 := a2Of cfg st.theta thetaP a1
    if r.u2 < a2 then
      { st with
        theta := thetaP
        innerMh := st.innerMh + 1
        innerAccepted := st.innerAccepted + 1
        coarseEvals := st.coarseEvals + 1
        fineEvals := st.fineEvals + 1
        acceptanceList := st.acceptanceList ++ [true] }
    else
      { st with
        innerMh := st.innerMh + 1
        coarseEvals := st.coarseEvals + 1
        fineEvals := st.fineEvals + 1
        acceptanceList := st.acceptanceList ++ [false] }
  else
    { st with coarseEvals := st.coarseEvals + 1 }

/-- The Phase B `while inner_mh < iter_da` loop (mcmc.py line 211): the
guard is checked before each iteration; one random record is consumed
per iteration; `none` means the supplied randomness ran out before the
trial target was met (the source loop would simply keep running). -/
noncomputable def daLoop (cfg : DACfg) (iterDa : ℕ) :
    List DARand → DAState → Option DAState
  | [], st => if iterDa ≤ st.innerMh then some st else none
  | r :: rs, st =>
    if iterDa ≤ st.innerMh then some st
    else daLoop cfg iterDa rs (daStep cfg st r)

/-- `MCMCDA.run_chain` (mcmc.py lines 165-257): Phase A folds the
adaptive coarse-only MH step over `rsA` (intended length `iter_mcmc`),
then Phase B starts from the inherited `theta` and `dt` with all
counters at zero. -/
noncomputable def MCMCDA.run_chain (cfg : DACfg) (iterDa : ℕ)
    (theta0 : List ℝ) (dt0 : ℝ) (rsA : List RandIn) (rsB : List DARand) :
    Option DAState :=
  let stA := mhRun (outerMHConfig cfg) rsA (mhInit theta0 dt0)
  daLoop cfg iterDa rsB (daInit stA.theta stA.dt)

/-!
`MCMCDA.proposal` in `langevin` mode (mcmc.py lines 158-162) reads
`self.log_likelihood`.  `MCMCDA` defines `log_prior`,
`log_likelihood_outer` and `log_likelihood_inner` only (mcmc.py
lines 142-152), and its sole subclass `NVMCMCDA` (nv_mcmc.py) adds no
`log_likelihood` either, so that attribute lookup fails
(`torch.nn.Module.__getattr__` raises `AttributeError`).  We model the
lookup result explicitly.
-/

/-- A raised Python exception, as far as this file needs it. -/
inductive PyError where
  | attributeError : PyError

/-- The proposal mode dispatch string (mcmc.py lines 156, 158). -/
inductive ProposalType where
  | random_walk : ProposalType
  | langevin : ProposalType

/-- Resolution of the attribute `log_likelihood` on an `MCMCDA` object:
no class in its hierarchy defines it (mcmc.py lines 119-162,
nv_mcmc.py lines 70-161), so the lookup yields nothing. -/
def MCMCDA.log_likelihood_lookup : Option (List ℝ → ℝ) :=
  none

/-- `MCMCDA.proposal` (mcmc.py lines 154-162).  `random_walk` adds
`Normal(0, dt²)` noise; `langevin` would return
`theta + 0.5 * dt * gradient + dt * noise` with `gradient` the autograd
gradient (abstracted as `gradOf`) of `self.log_likelihood` — but first
it must resolve that attribute. -/
noncomputable def MCMCDA.proposal (ptype : ProposalType) (theta : List ℝ)
    (dt : ℝ) (z : List ℝ) (gradOf : (List ℝ → ℝ) → List ℝ → List ℝ) :
    Except PyError (List ℝ) :=
  match ptype with
  | .random_walk => .ok (proposalRW theta dt z)
  | .langevin =>
    match MCMCDA.log_likelihood_lookup with
    | none => .error .attributeError
    | some f =>
      .ok (List.zipWith (fun tg n => tg.1 + 0.5 * dt * tg.2 + dt * n)
        (theta.zip (gradOf f theta)) z)

/-!
`MoreauYosidaPrior` (mcmc.py lines 432-498).
-/

/-- `MoreauYosidaPrior.log_prob` (mcmc.py lines 450-459): elementwise
over the input tensor,
`-(clamp(|x| - 1, min=0)^2) / (2*lam) - log(2 + sqrt(2*pi*lam))`.
No summation over coordinates is performed; the result has the shape of
the input. -/
noncomputable def MoreauYosidaPrior.log_prob (lam : ℝ) (x : List ℝ) : List ℝ :=
  x.map (fun xi =>
    -(max (|xi| - 1) 0) ^ 2 / (2 * lam) - Real.log (2 + Real.sqrt (2 * Real.pi * lam)))

/-- Log-density of the importance-sampling proposal
`dist.Normal(loc=0.0, scale=2.0)` (mcmc.py line 467). -/
noncomputable def normalLogPdf (scale : ℝ) (p : ℝ) : ℝ :=
  -(p ^ 2 / (2 * scale ^ 2)) - Real.log (scale * Real.sqrt (2 * Real.pi))

/-- The importance weights of `MoreauYosidaPrior.sample` (mcmc.py
lines 470-480): `exp(log_prob(p) - log q(p))`, then clamped at zero. -/
noncomputable def importanceWeights (lam : ℝ) (proposals : List ℝ) : List ℝ :=
  (List.zipWith (fun lp lq => Real.exp (lp - lq))
    (MoreauYosidaPrior.log_prob lam proposals)
    (proposals.map (normalLogPdf 2))).map (fun w => max w 0)

/-- `MoreauYosidaPrior.sample` (mcmc.py lines 461-494), with the
proposal draws and the multinomial resampling indices passed in as the
consumed randomness: if the clamped weight sum is positive, resample
`proposals` at the multinomial indices; otherwise fall back to the raw
unweighted proposal draws. -/
noncomputable def MoreauYosidaPrior.sample (lam : ℝ) (proposals : List ℝ)
    (idx : List ℕ) : List ℝ :=
  if 0 < (importanceWeights lam proposals).sum then
    idx.map (fun i => proposals.getD i 0)
  else
    proposals

/-- `MetropolisHastings.run_chains` seed generation (mcmc.py line 99):
`[torch.randint(0, 100000, (1,)).item() for _ in range(nchains)]`,
with the RNG draw stream modelled by `g` (entry `i` reduced into the
`randint` range `[0, 100000)`). -/
def run_chains_seeds (g : ℕ → ℕ) (nchains : ℕ) : List ℕ :=
  (List.range nchains).map (fun i => g i % 100000)

/-!
Theorems.  Concrete configurations used as proof witnesses first.
-/

/-- Oracles that are constantly the finite value `0`; used to exercise
runs in which every proposal is accepted (`a = exp 0 = 1`). -/
noncomputable def zeroMHConfig : MHConfig :=
  { log_prior := fun _ => .fin 0, log_likelihood := fun _ => .fin 0 }

/-- DA oracles that are constantly the finite value `0`; note the inner
and outer likelihoods are the same function. -/
noncomputable def zeroDACfg : DACfg :=
  { log_prior := fun _ => .fin 0
    log_likelihood_outer := fun _ => .fin 0
    log_likelihood_inner := fun _ => .fin 0 }

/-- DA oracles whose prior is `-inf` everywhere, so every coarse
acceptance probability is `0`. -/
noncomputable def botPriorDACfg : DACfg :=
  { log_prior := fun _ => .negInf
    log_likelihood_outer := fun _ => .fin 0
    log_likelihood_inner := fun _ => .fin 0 }

/-- Claim C4: for every `step_size > 0`, every acceptance probability
`a ∈ [0,1]` and every iteration index `i ≥ 0`, one application of the
step-size controller produces
`step_size + step_size * (a - 0.234) / (i + 1)`, and the updated value
is strictly positive. -/
theorem adapt_step_size_pos (dt a : ℝ) (i : ℕ) (hdt : 0 < dt)
    (ha0 : 0 ≤ a) (ha1 : a ≤ 1) :
    adapt dt a i = dt + dt * (a - 0.234) / (i + 1) ∧ 0 < adapt dt a i := by
  refine ⟨rfl, ?_⟩
  have hi : (0 : ℝ) < (i : ℝ) + 1 := by positivity
  have hkey : adapt dt a i = dt * (((i : ℝ) + 1) + (a - 0.234)) / ((i : ℝ) + 1) := by
    unfold adapt
    field_simp
    ring
  have hnum : 0 < ((i : ℝ) + 1) + (a - 0.234) := by nlinarith
  rw [hkey]
  exact div_pos (mul_pos hdt hnum) hi

/-- Witness for C4 at `dt = 1`, `a = 0`, `i = 0`. -/
theorem adapt_step_size_pos_witness :
    (0 : ℝ) < 1 ∧ (0 : ℝ) ≤ 0 ∧ (0 : ℝ) ≤ 1 ∧
    (adapt 1 0 0 = 1 + 1 * ((0 : ℝ) - 0.234) / ((0 : ℕ) + 1) ∧ 0 < adapt 1 0 0) :=
  ⟨by norm_num, le_refl 0, by norm_num,
    adapt_step_size_pos 1 0 0 (by norm_num) (le_refl 0) (by norm_num)⟩

/-- Claim C3: in every Phase B trial, if the stage-1 acceptance
probability `a1` is `0` then the stage-1 test `u1 < a1` fails for every
`u1` drawn from `Uniform[0,1)` (`u1 ≥ 0`), so the step is a pure coarse
rejection: the stage-2 branch containing the division by `a1` is never
entered, and only the coarse evaluation counter moves. -/
theorem stage2_unreachable_when_a1_zero (cfg : DACfg) (st : DAState)
    (r : DARand) (hu : 0 ≤ r.u1)
    (ha : a1Of cfg st.theta (proposalRW st.theta st.dt r.z) = 0) :
    daStep cfg st r = { st with coarseEvals := st.coarseEvals + 1 } := by
  simp only [daStep]
  rw [ha, if_neg (not_lt.mpr hu)]

/-- Witness for C3: a prior that is `-inf` everywhere makes `a1 = 0`,
and the step only bumps the coarse counter. -/
theorem stage2_unreachable_when_a1_zero_witness :
    (0 : ℝ) ≤ (0 : ℝ) ∧
    a1Of botPriorDACfg [0] (proposalRW [0] 1 [0]) = 0 ∧
    daStep botPriorDACfg ⟨[0], 1, 0, 0, 0, 0, []⟩ ⟨[0], 0, 0⟩ =
      ⟨[0], 1, 0, 0, 1, 0, []⟩ := by
  have ha : a1Of botPriorDACfg [0] (proposalRW [0] 1 [0]) = 0 := rfl
  exact ⟨le_refl 0, ha,
    stage2_unreachable_when_a1_zero botPriorDACfg ⟨[0], 1, 0, 0, 0, 0, []⟩
      ⟨[0], 0, 0⟩ (le_refl 0) ha⟩

/-- When the same log-posterior pair feeds both stages, the corrected
second-stage probability is exactly `1` as soon as the first-stage
probability is positive: the `1/a1` factor cancels the posterior
ratio. -/
lemma accProb2_self (lp lc : LogVal) (h : 0 < accProb lp lc) :
    accProb2 lp lc (accProb lp lc) = 1 := by
  cases lp with
  | negInf =>
    simp only [accProb] at h
    exact absurd h (lt_irrefl 0)
  | fin x =>
    cases lc with
    | negInf => rfl
    | fin y =>
      have hE : 0 < Real.exp (x - y) := Real.exp_pos _
      simp only [accProb, accProb2]
      rcases le_or_lt (Real.exp (x - y)) 1 with hle | hlt
      · rw [min_eq_right hle, mul_one_div, div_self hE.ne', min_self]
      · have h1 : min 1 (Real.exp (x - y)) = 1 := min_eq_left hlt.le
        rw [h1, one_div_one, mul_one]
        exact h1

/-- Claim C6: if the coarse and fine oracles are the identical function,
then in every Phase B trial that passes stage 1 (so `0 ≤ u1 < a1`), the
second-stage acceptance probability equals exactly `1`. -/
theorem da_equal_oracles_a2_eq_one (cfg : DACfg) (theta thetaP : List ℝ)
    (u1 : ℝ) (horacle : cfg.log_likelihood_inner = cfg.log_likelihood_outer)
    (hu0 : 0 ≤ u1) (hu1 : u1 < a1Of cfg theta thetaP) :
    a2Of cfg theta thetaP (a1Of cfg theta thetaP) = 1 := by
  have hpos : 0 < a1Of cfg theta thetaP := lt_of_le_of_lt hu0 hu1
  have hP : logPostInner cfg thetaP = logPostOuter cfg thetaP := by
    simp [logPostInner, logPostOuter, horacle]
  have hC : logPostInner cfg theta = logPostOuter cfg theta := by
    simp [logPostInner, logPostOuter, horacle]
  unfold a1Of at hpos
  unfold a2Of a1Of
  rw [hP, hC]
  exact accProb2_self _ _ hpos

/-- Witness for C6 with identical constant-zero oracles. -/
theorem da_equal_oracles_a2_eq_one_witness :
    zeroDACfg.log_likelihood_inner = zeroDACfg.log_likelihood_outer ∧
    (0 : ℝ) ≤ 0 ∧ (0 : ℝ) < a1Of zeroDACfg [0] [1] ∧
    a2Of zeroDACfg [0] [1] (a1Of zeroDACfg [0] [1]) = 1 := by
  have h1 : a1Of zeroDACfg [0] [1] = 1 := by
    show min 1 (Real.exp ((0 + 0) - (0 + 0))) = 1
    norm_num
  refine ⟨rfl, le_refl 0, by rw [h1]; norm_num, ?_⟩
  exact da_equal_oracles_a2_eq_one zeroDACfg [0] [1] 0 rfl (le_refl 0)
    (by rw [h1]; norm_num)

/-- One Phase B iteration either completes a trial (stage-1 pass:
`inner_mh` and the fine counter both advance by one) or coarse-rejects
(neither moves); the coarse counter advances every iteration. -/
lemma daStep_counters (cfg : DACfg) (st : DAState) (r : DARand) :
    ∃ d : ℕ, d ≤ 1 ∧
      (daStep cfg st r).innerMh = st.innerMh + d ∧
      (daStep cfg st r).fineEvals = st.fineEvals + d ∧
      (daStep cfg st r).coarseEvals = st.coarseEvals + 1 := by
  simp only [daStep]
  split
  · split
    · exact ⟨1, le_refl 1, rfl, rfl, rfl⟩
    · exact ⟨1, le_refl 1, rfl, rfl, rfl⟩
  · exact ⟨0, Nat.zero_le 1, rfl, rfl, rfl⟩

/-- No branch of a Phase B iteration touches the step size. -/
lemma daStep_dt (cfg : DACfg) (st : DAState) (r : DARand) :
    (daStep cfg st r).dt = st.dt := by
  simp only [daStep]
  split
  · split <;> rfl
  · rfl

/-- Invariant of the Phase B loop: a completed run (`some final`) stops
with the trial counter exactly at the target, having advanced the fine
counter once per trial and the coarse counter at least once per trial,
and with the step size unchanged. -/
lemma daLoop_some (cfg : DACfg) (iterDa : ℕ) :
    ∀ (rs : List DARand) (st final : DAState),
      daLoop cfg iterDa rs st = some final → st.innerMh ≤ iterDa →
      final.innerMh = iterDa ∧
      final.fineEvals + st.innerMh = iterDa + st.fineEvals ∧
      iterDa + st.coarseEvals ≤ final.coarseEvals + st.innerMh ∧
      final.dt = st.dt := by
  intro rs
  induction rs with
  | nil =>
    intro st final h hle
    simp only [daLoop] at h
    split at h
    · rename_i hguard
      cases h
      exact ⟨Nat.le_antisymm hle hguard, by omega, by omega, rfl⟩
    · exact absurd h (by simp)
  | cons r rest ih =>
    intro st final h hle
    simp only [daLoop] at h
    split at h
    · rename_i hguard
      cases h
      exact ⟨Nat.le_antisymm hle hguard, by omega, by omega, rfl⟩
    · rename_i hguard
      obtain ⟨d, hd, hinner, hfine, hcoarse⟩ := daStep_counters cfg st r
      have hdt := daStep_dt cfg st r
      have hle2 : (daStep cfg st r).innerMh ≤ iterDa := by omega
      obtain ⟨h1, h2, h3, h4⟩ := ih (daStep cfg st r) final h hle2
      exact ⟨h1, by omega, by omega, by rw [h4, hdt]⟩

/-- Claim C1: every completed Phase B run of the DA driver stops after
exactly `iter_da` coarse-accepted trials; the number of fine-oracle
evaluation rounds in Phase B is exactly `iter_da`, and the number of
coarse-oracle evaluation rounds is at least `iter_da`. -/
theorem da_trial_counter_invariant (cfg : DACfg) (iterDa : ℕ)
    (theta0 : List ℝ) (dt0 : ℝ) (rsA : List RandIn) (rsB : List DARand)
    (final : DAState)
    (h : MCMCDA.run_chain cfg iterDa theta0 dt0 rsA rsB = some final) :
    final.innerMh = iterDa ∧ final.fineEvals = iterDa ∧
    iterDa ≤ final.coarseEvals := by
  simp only [MCMCDA.run_chain] at h
  obtain ⟨h1, h2, h3, _⟩ := daLoop_some cfg iterDa rsB _ final h (Nat.zero_le _)
  simp only [daInit] at h2 h3
  exact ⟨h1, by omega, by omega⟩

/-- Witness for C1: with constant-zero oracles and trial target `1`, a
single Phase B iteration accepts at both stages and the run completes
with all three counters equal to `1`. -/
theorem da_trial_counter_invariant_witness :
    MCMCDA.run_chain zeroDACfg 1 [0] 1 [] [⟨[0], 0, 0⟩] =
      some ⟨[0], 1, 1, 1, 1, 1, [true]⟩ ∧
    ((⟨[0], 1, 1, 1, 1, 1, [true]⟩ : DAState).innerMh = 1 ∧
     (⟨[0], 1, 1, 1, 1, 1, [true]⟩ : DAState).fineEvals = 1 ∧
     1 ≤ (⟨[0], 1, 1, 1, 1, 1, [true]⟩ : DAState).coarseEvals) := by
  have hrun : MCMCDA.run_chain zeroDACfg 1 [0] 1 [] [⟨[0], 0, 0⟩] =
      some ⟨[0], 1, 1, 1, 1, 1, [true]⟩ := by
    norm_num [MCMCDA.run_chain, daLoop, daStep, daInit, mhRun, mhInit,
      a1Of, a2Of, accProb, accProb2, logPostOuter, logPostInner,
      LogVal.add, zeroDACfg, proposalRW, outerMHConfig, Real.exp_zero]
  exact ⟨hrun,
    da_trial_counter_invariant zeroDACfg 1 [0] 1 [] [⟨[0], 0, 0⟩]
      ⟨[0], 1, 1, 1, 1, 1, [true]⟩ hrun⟩

/-- Claim C5: throughout Phase B the step size is frozen — no Phase B
iteration changes it (every proposal is made with the value inherited
from the end of the Phase A burn-in), and a completed DA run ends with
the step size still equal to Phase A's final adapted value. -/
theorem da_phaseB_step_size_frozen :
    (∀ (cfg : DACfg) (st : DAState) (r : DARand),
      (daStep cfg st r).dt = st.dt) ∧
    (∀ (cfg : DACfg) (iterDa : ℕ) (theta0 : List ℝ) (dt0 : ℝ)
      (rsA : List RandIn) (rsB : List DARand) (final : DAState),
      MCMCDA.run_chain cfg iterDa theta0 dt0 rsA rsB = some final →
      final.dt = (mhRun (outerMHConfig cfg) rsA (mhInit theta0 dt0)).dt) := by
  refine ⟨daStep_dt, ?_⟩
  intro cfg iterDa theta0 dt0 rsA rsB final h
  simp only [MCMCDA.run_chain] at h
  obtain ⟨_, _, _, h4⟩ := daLoop_some cfg iterDa rsB _ final h (Nat.zero_le _)
  simpa [daInit] using h4

/-- Witness for C5 at trial target `0`: the run completes at once and
the final step size is Phase A's. -/
theorem da_phaseB_step_size_frozen_witness :
    MCMCDA.run_chain zeroDACfg 0 [0] 1 [] [] = some ⟨[0], 1, 0, 0, 0, 0, []⟩ ∧
    (⟨[0], 1, 0, 0, 0, 0, []⟩ : DAState).dt =
      (mhRun (outerMHConfig zeroDACfg) [] (mhInit [0] 1)).dt := by
  have hrun : MCMCDA.run_chain zeroDACfg 0 [0] 1 [] [] =
      some ⟨[0], 1, 0, 0, 0, 0, []⟩ := rfl
  exact ⟨hrun,
    da_phaseB_step_size_frozen.2 zeroDACfg 0 [0] 1 [] [] ⟨[0], 1, 0, 0, 0, 0, []⟩ hrun⟩

/-- One MH iteration increments the accepted-proposal counter by at
most one. -/
lemma mhStep_accepted_le (cfg : MHConfig) (st : MHState) (r : RandIn) :
    (mhStep cfg st r).accepted ≤ st.accepted + 1 := by
  simp only [mhStep]
  split <;> omega

/-- Over a whole run the accepted-proposal counter grows by at most the
number of iterations. -/
lemma mhRun_accepted_le (cfg : MHConfig) :
    ∀ (rs : List RandIn) (st : MHState),
      (mhRun cfg rs st).accepted ≤ st.accepted + rs.length := by
  intro rs
  induction rs with
  | nil => intro st; simp [mhRun]
  | cons r rest ih =>
    intro st
    have h1 := ih (mhStep cfg st r)
    have h2 := mhStep_accepted_le cfg st r
    simp only [mhRun, List.length_cons]
    omega

/-- Counterexample to C2 as stated: with burn-in `1`, `nsamples = 1`,
constant-zero oracles and accept draws `u = 0`, both iterations (the
burn-in one included) are accepted, so the returned acceptance rate is
`2/1 = 2`, outside `[0,1]`. -/
theorem mh_acceptance_rate_above_one :
    1 < (MetropolisHastings.run_chain zeroMHConfig 1 1 [0] 1
      [⟨[0], 0⟩, ⟨[0], 0⟩]).2 := by
  have h : (MetropolisHastings.run_chain zeroMHConfig 1 1 [0] 1
      [⟨[0], 0⟩, ⟨[0], 0⟩]).2 = 2 := by
    norm_num [MetropolisHastings.run_chain, mhRun, mhStep, mhInit,
      proposalRW, logPost, accProb, LogVal.add, zeroMHConfig, adapt,
      Real.exp_zero]
  rw [h]
  norm_num

/-- Claim C2 (amended): the single-stage MH driver returns acceptance
rate `accepted-count / nsamples`, where `accepted-count` also counts
burn-in acceptances; the rate is nonnegative and at most
`(nsamples + burnin) / nsamples` — it is confined to `[0,1]` only when
`burnin = 0`, not in general. -/
theorem mh_acceptance_rate_formula (cfg : MHConfig) (nsamples burnin : ℕ)
    (theta0 : List ℝ) (dt0 : ℝ) (rs : List RandIn)
    (hlen : rs.length = nsamples + burnin) (hns : 1 ≤ nsamples) :
    (MetropolisHastings.run_chain cfg nsamples burnin theta0 dt0 rs).2 =
      ((mhRun cfg rs (mhInit theta0 dt0)).accepted : ℝ) / (nsamples : ℝ) ∧
    0 ≤ (MetropolisHastings.run_chain cfg nsamples burnin theta0 dt0 rs).2 ∧
    (MetropolisHastings.run_chain cfg nsamples burnin theta0 dt0 rs).2 ≤
      ((nsamples : ℕ) + (burnin : ℕ) : ℝ) / ((nsamples : ℕ) : ℝ) := by
  refine ⟨rfl, div_nonneg (Nat.cast_nonneg _) (Nat.cast_nonneg _), ?_⟩
  have hacc : (mhRun cfg rs (mhInit theta0 dt0)).accepted ≤ nsamples + burnin := by
    have h := mhRun_accepted_le cfg rs (mhInit theta0 dt0)
    have h0 : (mhInit theta0 dt0).accepted = 0 := rfl
    rw [h0, hlen] at h
    omega
  have hnspos : (0 : ℝ) < (nsamples : ℝ) := by
    exact_mod_cast Nat.lt_of_lt_of_le Nat.zero_lt_one hns
  show ((mhRun cfg rs (mhInit theta0 dt0)).accepted : ℝ) / (nsamples : ℝ) ≤ _
  have hcast : ((mhRun cfg rs (mhInit theta0 dt0)).accepted : ℝ) ≤
      ((nsamples : ℕ) + (burnin : ℕ) : ℝ) := by
    exact_mod_cast hacc
  exact (div_le_div_iff_of_pos_right hnspos).mpr hcast

/-- Witness for the amended C2 at `nsamples = 1`, `burnin = 0`. -/
theorem mh_acceptance_rate_formula_witness :
    ([⟨[0], 0⟩] : List RandIn).length = 1 + 0 ∧ 1 ≤ 1 ∧
    ((MetropolisHastings.run_chain zeroMHConfig 1 0 [0] 1 [⟨[0], 0⟩]).2 =
        ((mhRun zeroMHConfig [⟨[0], 0⟩] (mhInit [0] 1)).accepted : ℝ) /
          ((1 : ℕ) : ℝ) ∧
      0 ≤ (MetropolisHastings.run_chain zeroMHConfig 1 0 [0] 1 [⟨[0], 0⟩]).2 ∧
      (MetropolisHastings.run_chain zeroMHConfig 1 0 [0] 1 [⟨[0], 0⟩]).2 ≤
        ((1 : ℕ) + (0 : ℕ) : ℝ) / ((1 : ℕ) : ℝ)) :=
  ⟨rfl, le_refl 1,
    mh_acceptance_rate_formula zeroMHConfig 1 0 [0] 1 [⟨[0], 0⟩] rfl (le_refl 1)⟩

/-- Counterexample to C7 as stated: on the two-coordinate input
`[0, 0]` the prior's `log_prob` does not return a single scalar (the
summed value); it returns one entry per coordinate. -/
theorem log_prob_not_single_scalar :
    ¬ ∃ v : ℝ, MoreauYosidaPrior.log_prob 1 [0, 0] = [v] := by
  rintro ⟨v, hv⟩
  have hlen := congrArg List.length hv
  simp [MoreauYosidaPrior.log_prob] at hlen

/-- Claim C7 (amended): for every `lambda > 0`, `log_prob` returns one
value per coordinate — penalty `-(max(|x_i|-1,0))² / (2 lambda)` minus
the normalizing constant `log(2 + sqrt(2 pi lambda))` — as a vector the
shape of the input (no summation); summing its entries yields the
claimed scalar, total penalty minus one constant per coordinate. -/
theorem log_prob_elementwise_sum (lam : ℝ) (x : List ℝ) (hlam : 0 < lam) :
    (MoreauYosidaPrior.log_prob lam x).length = x.length ∧
    (MoreauYosidaPrior.log_prob lam x).sum =
      (x.map (fun xi => -(max (|xi| - 1) 0) ^ 2 / (2 * lam))).sum -
        x.length * Real.log (2 + Real.sqrt (2 * Real.pi * lam)) := by
  constructor
  · simp [MoreauYosidaPrior.log_prob]
  · induction x with
    | nil => simp [MoreauYosidaPrior.log_prob]
    | cons a l ih =>
      simp only [MoreauYosidaPrior.log_prob, List.map_cons, List.sum_cons,
        List.length_cons] at ih ⊢
      push_cast
      linarith

/-- Witness for the amended C7 at `lambda = 1`, `x = [0, 0]`. -/
theorem log_prob_elementwise_sum_witness :
    (0 : ℝ) < 1 ∧
    ((MoreauYosidaPrior.log_prob 1 [0, 0]).length = ([0, 0] : List ℝ).length ∧
      (MoreauYosidaPrior.log_prob 1 [0, 0]).sum =
        (([0, 0] : List ℝ).map
          (fun xi => -(max (|xi| - 1) 0) ^ 2 / (2 * 1))).sum -
          ([0, 0] : List ℝ).length * Real.log (2 + Real.sqrt (2 * Real.pi * 1))) :=
  ⟨by norm_num, log_prob_elementwise_sum 1 [0, 0] (by norm_num)⟩

/-- Claim C8 (code bug): the DA driver's `langevin` proposal never
returns the MALA-style update, because it reads the attribute
`self.log_likelihood`, which no class in the `MCMCDA` hierarchy
defines; every call raises `AttributeError` instead. -/
theorem da_langevin_proposal_attribute_error (theta : List ℝ) (dt : ℝ)
    (z : List ℝ) (gradOf : (List ℝ → ℝ) → List ℝ → List ℝ) :
    MCMCDA.proposal .langevin theta dt z gradOf =
      .error .attributeError := rfl

/-- Claim C9: when every (clamped) importance weight is zero — so the
weight sum is not positive — the prior's `sample` skips normalization
and resampling and returns the raw unweighted proposal draws; no error
is raised and no division by the zero sum happens. -/
theorem sample_zero_weights_fallback (lam : ℝ) (proposals : List ℝ)
    (idx : List ℕ)
    (hz : ∀ w ∈ importanceWeights lam proposals, w = 0) :
    MoreauYosidaPrior.sample lam proposals idx = proposals := by
  have hsum : (importanceWeights lam proposals).sum = 0 :=
    List.sum_eq_zero hz
  unfold MoreauYosidaPrior.sample
  rw [hsum, if_neg (lt_irrefl 0)]

/-- Witness for C9 on an empty proposal batch: all (zero) weights are
zero and the raw draws come back. -/
theorem sample_zero_weights_fallback_witness :
    (∀ w ∈ importanceWeights 1 ([] : List ℝ), w = 0) ∧
    MoreauYosidaPrior.sample 1 [] [] = [] :=
  ⟨by simp [importanceWeights, MoreauYosidaPrior.log_prob],
    sample_zero_weights_fallback 1 [] []
      (by simp [importanceWeights, MoreauYosidaPrior.log_prob])⟩

/-- Counterexample to C10 as stated: the seed list is built from
independent `randint` draws with no distinctness check, so a random
stream that repeats a value yields equal seeds for two chains —
pairwise distinctness fails. -/
theorem run_chains_seeds_not_distinct :
    ¬ List.Pairwise Ne (run_chains_seeds (fun _ => 0) 2) := by
  decide

/-- Claim C10 (amended): the orchestrator generates one seed per chain,
each an independent `randint` draw lying in `[0, 100000)`; pairwise
distinctness is not guaranteed. -/
theorem run_chains_seeds_range (g : ℕ → ℕ) (nchains : ℕ) :
    (run_chains_seeds g nchains).length = nchains ∧
    ∀ s ∈ run_chains_seeds g nchains, s < 100000 := by
  constructor
  · simp [run_chains_seeds]
  · intro s hs
    simp only [run_chains_seeds, List.mem_map] at hs
    obtain ⟨i, _, rfl⟩ := hs
    exact Nat.mod_lt _ (by norm_num)
